import Mathlib

/-!
Verification of the RAG core of the ChatMe-LLM repository.

The Python source (`src/rag.py`, `src/rag_qdrant.py`) is shallowly embedded:
strings become `List Char`, Python `int` becomes `Int`, float vectors become
`List ℝ`, fallible API calls become `Option`-returning functions, and the
class attribute state of the in-memory `RAGSystem` becomes an explicit
`MemState` record threaded through the operations.
-/

namespace ChatMe

/-- Python's `\s` character class (and `str.strip` / `str.split` whitespace),
restricted to the ASCII whitespace characters. -/
def pyIsSpace (c : Char) : Bool :=
  c = ' ' || c = '\t' || c = '\n' || c = '\r' || c = Char.ofNat 11 || c = Char.ofNat 12

/-- Helper for `collapseWS`: the flag records whether the previous character
belonged to a whitespace run (whose single replacement space is already
emitted). -/
def collapseAux : Bool → List Char → List Char
  | _, [] => []
  | inRun, c :: cs =>
    if pyIsSpace c then
      if inRun then collapseAux true cs else ' ' :: collapseAux true cs
    else c :: collapseAux false cs

/-- `re.sub(r'\s+', ' ', text)`: replace every maximal whitespace run by one space. -/
def collapseWS (l : List Char) : List Char :=
  collapseAux false l

/-- Python `str.strip()`. -/
def strip (l : List Char) : List Char :=
  ((l.dropWhile pyIsSpace).reverse.dropWhile pyIsSpace).reverse

/-- `re.sub(r'\s+', ' ', text).strip()` — the cleaning step of `_chunk_text`. -/
def normText (l : List Char) : List Char :=
  strip (collapseWS l)

/-- Helper for `splitWords`: accumulator holds the current word reversed. -/
def splitWordsAux : List Char → List Char → List (List Char)
  | [], acc => if acc = [] then [] else [acc.reverse]
  | c :: cs, acc =>
    if pyIsSpace c then
      if acc = [] then splitWordsAux cs []
      else acc.reverse :: splitWordsAux cs []
    else splitWordsAux cs (c :: acc)

/-- Python `str.split()` with no argument: whitespace-delimited words, no empties. -/
def splitWords (l : List Char) : List (List Char) :=
  splitWordsAux l []

/-- Python `" ".join(ws)`. -/
def joinSp : List (List Char) → List Char
  | [] => []
  | [w] => w
  | w :: ws => w ++ ' ' :: joinSp ws

/-- `.`, `!` or `?` — the lookbehind class of the sentence-split regex. -/
def isEnd (c : Char) : Bool := c = '.' || c = '!' || c = '?'

/-- A sentence split point: a whitespace character whose immediately preceding
character (the head of the reversed accumulator) is `.`, `!` or `?`. -/
def sentBoundary (c : Char) (acc : List Char) : Bool :=
  pyIsSpace c && (match acc with
    | p :: _ => isEnd p
    | [] => false)

/-- Helper for `splitSent`: the accumulator holds the current sentence
reversed; the flag is true while consuming the whitespace run of a match
(the regex `(?<=[.!?])\s+` consumes a maximal run). -/
def splitSentAux : Bool → List Char → List Char → List (List Char)
  | _, [], acc => [acc.reverse]
  | true, c :: cs, acc =>
    if pyIsSpace c then splitSentAux true cs acc
    else splitSentAux false cs (c :: acc)
  | false, c :: cs, acc =>
    if sentBoundary c acc then
      acc.reverse :: splitSentAux true cs []
    else splitSentAux false cs (c :: acc)

/-- `re.split(r'(?<=[.!?])\s+', text)`. -/
def splitSent (l : List Char) : List (List Char) :=
  splitSentAux false l []

/-- Python list slice `a[s:]` for an `int` slice start `s`
(negative starts count from the end, clamped at 0). -/
def pyDropFrom (s : Int) (l : List α) : List α :=
  if 0 ≤ s then l.drop s.toNat
  else l.drop (l.length - min l.length (-s).toNat)

/-- The overlap seed words computed when `_chunk_text` closes a chunk
(`src/rag.py` lines 57-59): `words = current_chunk.split()`,
`overlap_word_count = min(len(words), overlap // 4)` (Python `//` is floor
division), and the slice `words[-overlap_word_count:]` — note that for
`overlap // 4 = 0` the Python slice `words[-0:]` is the whole word list,
which `pyDropFrom` reproduces. -/
def seedWords (overlap : Int) (cur : List Char) : List (List Char) :=
  let ws := splitWords cur
  pyDropFrom (-(min (ws.length : Int) (Int.fdiv overlap 4))) ws

/-- The sentence-accumulation loop of `_chunk_text` (`src/rag.py` lines 52-61,
identical in `src/rag_qdrant.py`).  `chunks` and `cur` are the Python loop
variables `chunks` and `current_chunk`.  On closing a chunk the next buffer is
seeded with `" ".join(words[-overlap_word_count:]) + " "` and the pending
sentence plus trailing space is then appended unconditionally. -/
def chunkLoop (maxSize overlap : Int) :
    List (List Char) → List (List Char) → List Char → List (List Char)
  | [], chunks, cur =>
      if strip cur ≠ [] then chunks ++ [strip cur] else chunks
  | s :: rest, chunks, cur =>
      if ((cur.length : Int) + (s.length : Int) > maxSize ∧ cur ≠ []) then
        chunkLoop maxSize overlap rest (chunks ++ [strip cur])
          (joinSp (seedWords overlap cur) ++ [' '] ++ s ++ [' '])
      else
        chunkLoop maxSize overlap rest chunks (cur ++ s ++ [' '])

/-- `RAGSystem._chunk_text` (`src/rag.py` lines 41-67, duplicated in
`src/rag_qdrant.py` lines 79-105). -/
def chunkText (maxSize overlap : Int) (text : List Char) : List (List Char) :=
  chunkLoop maxSize overlap (splitSent (normText text)) [] []

/-- The per-chunk record stored by `add_text`: the caller metadata (abstracted
to its `source` label), plus the `chunk_id` and `content` keys added in
`src/rag.py` lines 116-118. -/
structure DocRec where
  source : List Char
  chunk_id : Nat
  content : List Char
deriving DecidableEq, Repr, Inhabited

/-- The mutable state of the in-memory `RAGSystem`: the two parallel lists
`self.embeddings` and `self.documents` (`src/rag.py` lines 30-31).  The
embedding type is abstract (`List ℝ` for the search claims, any decidable
type for the ingestion claims). -/
structure MemState (α : Type) where
  embeddings : List α
  documents : List DocRec
deriving DecidableEq, Repr

/-- The state right after `RAGSystem.__init__` (`src/rag.py` lines 30-31). -/
def initMemState (α : Type) : MemState α := ⟨[], []⟩

/-- The embedding loop of the in-memory `add_text` (`src/rag.py` lines
111-122): each chunk is embedded and, on success, the vector and document
record are appended immediately; a failing embedding call propagates,
leaving the appends made so far in place. -/
def ingestLoop (E : List Char → Option α) (meta : List Char) :
    List (List Char) → Nat → MemState α → Option Nat × MemState α
  | [], i, st => (some i, st)
  | c :: rest, i, st =>
    match E c with
    | none => (none, st)
    | some v =>
      ingestLoop E meta rest (i + 1)
        ⟨st.embeddings ++ [v], st.documents ++ [⟨meta, i, c⟩]⟩

/-- `RAGSystem.add_text` of the in-memory variant (`src/rag.py` lines 93-124).
`E` is the embedding call (`none` = raised `EmbeddingError`); the returned
`Option Nat` is the chunk count, `none` when the call raised. -/
def addTextMem (E : List Char → Option α) (maxSize overlap : Int)
    (st : MemState α) (text meta : List Char) : Option Nat × MemState α :=
  ingestLoop E meta (chunkText maxSize overlap text) 0 st

/-- The page-concatenation step of `add_pdf` (`src/rag.py` lines 84-89):
pages whose extracted text is empty are skipped, the others are appended
each followed by one space. -/
def pdfText (pages : List (List Char)) : List Char :=
  pages.foldl (fun acc p => if p ≠ [] then acc ++ p ++ [' '] else acc) []

/-- `RAGSystem.add_pdf` of the in-memory variant (`src/rag.py` lines 69-91):
extract the page texts and delegate to `add_text`. -/
def addPdfMem (E : List Char → Option α) (maxSize overlap : Int)
    (st : MemState α) (pages : List (List Char)) (meta : List Char) :
    Option Nat × MemState α :=
  addTextMem E maxSize overlap st (pdfText pages) meta

/-- A point built for the Qdrant batch upsert (`src/rag_qdrant.py` lines
166-172); the random uuid id and the `created_at` timestamp are not modelled
as no claim depends on them. -/
structure QPoint (α : Type) where
  vector : α
  payload : DocRec
deriving DecidableEq, Repr

/-- The point-building loop of the Qdrant `add_text` (`src/rag_qdrant.py`
lines 149-172): embeddings are collected into a local `points` list; a
failing embedding call propagates before anything is written. -/
def qIngestLoop (E : List Char → Option α) (meta : List Char) :
    List (List Char) → Nat → List (QPoint α) → Option (List (QPoint α))
  | [], _, acc => some acc
  | c :: rest, i, acc =>
    match E c with
    | none => none
    | some v => qIngestLoop E meta rest (i + 1) (acc ++ [⟨v, ⟨meta, i, c⟩⟩])

/-- `RAGSystem.add_text` of the Qdrant variant (`src/rag_qdrant.py` lines
131-181).  The remote collection is modelled as the list of stored points;
the batch `upsert` appends them all at once (lines 174-179). -/
def addTextQd (E : List Char → Option α) (maxSize overlap : Int)
    (store : List (QPoint α)) (text meta : List Char) :
    Option Nat × List (QPoint α) :=
  let chunks := chunkText maxSize overlap text
  match qIngestLoop E meta chunks 0 [] with
  | none => (none, store)
  | some pts => (some chunks.length, store ++ pts)

/-- `RAGSystem.add_pdf` of the Qdrant variant (`src/rag_qdrant.py` lines
107-129): identical page concatenation, then `add_text`. -/
def addPdfQd (E : List Char → Option α) (maxSize overlap : Int)
    (store : List (QPoint α)) (pages : List (List Char)) (meta : List Char) :
    Option Nat × List (QPoint α) :=
  addTextQd E maxSize overlap store (pdfText pages) meta

/-- `np.dot` on two equal-length float vectors. -/
def dotL (x y : List ℝ) : ℝ := (List.zipWith (· * ·) x y).sum

/-- `np.linalg.norm`: the Euclidean norm. -/
noncomputable def normL (x : List ℝ) : ℝ := Real.sqrt (dotL x x)

/-- The cosine similarity computed in `search` (`src/rag.py` lines 144-146):
dot product divided by the product of the two norms. -/
noncomputable def cosineSim (q d : List ℝ) : ℝ := dotL q d / (normL q * normL d)

/-- `np.argsort`: a permutation of `[0, …, n-1]` listing the indices of
`xs` in ascending order of value (modelled with a stable merge sort; the
tie order is an intentionally loose guarantee per the spec). -/
noncomputable def argsortAsc (xs : List ℝ) : List Nat :=
  (List.range xs.length).mergeSort (fun i j => decide (xs.getD i 0 ≤ xs.getD j 0))

/-- `RAGSystem.search` of the in-memory variant (`src/rag.py` lines 126-163),
with the query already embedded (`q` is `query_embedding`).  Scores are the
cosine similarities against every stored embedding; `top_k` is replaced by
`min(top_k, len(self.documents))`, an exact zero returns `[]`, and otherwise
the result is `np.argsort(scores)[-top_k:][::-1]` mapped back to the
documents, each paired with its score. -/
noncomputable def searchMem (q : List ℝ) (st : MemState (List ℝ)) (topK : Int) :
    List (DocRec × ℝ) :=
  let scores := st.embeddings.map (fun d => cosineSim q d)
  let k : Int := min topK (st.documents.length : Int)
  if k = 0 then []
  else
    ((pyDropFrom (-k) (argsortAsc scores)).reverse).map
      (fun i => (st.documents.getD i default, scores.getD i 0))

/-- The default system prompt of `query` (`src/rag.py` line 186, identical in
`src/rag_qdrant.py` line 235). -/
def defaultSysPrompt : List Char :=
  "You are a helpful assistant. Answer the question based only on the provided context.".data

/-- Python `"\n\n".join(ts)`. -/
def joinBlank : List (List Char) → List Char
  | [] => []
  | [t] => t
  | t :: ts => t ++ "\n\n".data ++ joinBlank ts

/-- The context block of `query`: the `content` fields of the retrieved
documents joined by a blank line (`src/rag.py` lines 181-182). -/
def contextJoin (docs : List DocRec) : List Char :=
  joinBlank (docs.map (·.content))

/-- One role-tagged chat message. -/
structure ChatMsg where
  role : List Char
  content : List Char
deriving DecidableEq, Repr

/-- The generation request built by `query` (`src/rag.py` lines 184-198):
`if not system_prompt` replaces both `None` and the empty string by the
default prompt; the system message carries the prompt and the context block,
the user message carries the query.  The model name and temperature are the
fixed constants of the call. -/
def genRequestMem (docs : List DocRec) (systemPrompt : Option (List Char))
    (userQuery : List Char) : List Char × List ChatMsg :=
  let sp := match systemPrompt with
    | none => defaultSysPrompt
    | some s => if s = [] then defaultSysPrompt else s
  ("gpt-4o-mini".data,
   [⟨"system".data, sp ++ "\n\nContext:\n".data ++ contextJoin docs⟩,
    ⟨"user".data, userQuery⟩])

/-- The generation request built by the Qdrant variant's `query`
(`src/rag_qdrant.py` lines 229-247) — the code is duplicated verbatim. -/
def genRequestQd (docs : List DocRec) (systemPrompt : Option (List Char))
    (userQuery : List Char) : List Char × List ChatMsg :=
  let sp := match systemPrompt with
    | none => defaultSysPrompt
    | some s => if s = [] then defaultSysPrompt else s
  ("gpt-4o-mini".data,
   [⟨"system".data, sp ++ "\n\nContext:\n".data ++ contextJoin docs⟩,
    ⟨"user".data, userQuery⟩])

/-- The configuration error of the Qdrant constructor. -/
inductive ConfigError where
  | missingUrl
deriving DecidableEq, Repr

/-- The connection parameters accepted by the Qdrant constructor. -/
structure QdrantConn where
  url : List Char
  apiKey : Option (List Char)
deriving DecidableEq, Repr

/-- The connection set-up of the Qdrant `RAGSystem.__init__`
(`src/rag_qdrant.py` lines 43-54): `os.getenv` yields `none` when the
variable is absent; `if not qdrant_url` raises for an absent or empty
`QDRANT_URL`, while `QDRANT_API_KEY` is passed through unchecked. -/
def initQdrant (url apiKey : Option (List Char)) : Except ConfigError QdrantConn :=
  match url with
  | none => .error .missingUrl
  | some u => if u = [] then .error .missingUrl else .ok ⟨u, apiKey⟩

/-- The parallel-array invariant of the in-memory store: the two lists have
equal length and the vector at position `j` is the embedding of the content
of the document record at position `j`. -/
def corresponds (E : List Char → Option α) (st : MemState α) : Prop :=
  st.embeddings.length = st.documents.length ∧
  ∀ (j : Nat) (v : α) (d : DocRec), st.embeddings[j]? = some v →
    st.documents[j]? = some d → E d.content = some v

/-- The claimed word-overlap relation between two consecutive chunks: the last
`min(word count, floor(overlap/4))` words of `c` are the first words of `c'`. -/
def overlapOK (overlap : Int) (c c' : List Char) : Prop :=
  (splitWords c).drop
      ((splitWords c).length - min (splitWords c).length (overlap.toNat / 4))
    <+: splitWords c'

instance (overlap : Int) (c c' : List Char) : Decidable (overlapOK overlap c c') :=
  inferInstanceAs (Decidable (_ <+: _))

/-- The provable size relation between two consecutive chunks of `_chunk_text`:
either `c'` fits in `maxSize`, or `c'` was formed from the overlap seed of `c`
followed by exactly one sentence (so its length is bounded by the seed's length
plus the sentence's length plus one, not by `maxSize`). -/
def growthOK (maxSize overlap : Int) (sents : List (List Char))
    (c c' : List Char) : Prop :=
  (c'.length : Int) ≤ maxSize ∨
  ∃ s ∈ sents, c' = strip (joinSp (seedWords overlap c) ++ [' '] ++ s ++ [' ']) ∧
    (c'.length : Int) ≤ (joinSp (seedWords overlap c)).length + s.length + 1

/-- The provable size property of the first chunk of `_chunk_text`: it fits in
`maxSize` unless it consists of a single sentence longer than `maxSize`. -/
def headOK (maxSize : Int) (sents : List (List Char)) (c : List Char) : Prop :=
  (c.length : Int) ≤ maxSize ∨
  ∃ s ∈ sents, c = strip (s ++ [' ']) ∧ c.length ≤ s.length

/-- A concrete fallible embedding call used in witnesses: it succeeds on the
first chunk of `"aa. bb."` and raises on everything else. -/
def embedFailSecond : List Char → Option (List Int) :=
  fun s => if s = "aa.".data then some [1] else none

/-- A concrete total embedding call used in witnesses. -/
def embedLen : List Char → Option (List Int) :=
  fun s => some [(s.length : Int)]

/-- A concrete two-document in-memory state used in witnesses and
counterexamples for the search claims. -/
noncomputable def stTwo : MemState (List ℝ) :=
  ⟨[[1, 0], [0, 1]],
   [⟨"a".data, 0, "x".data⟩, ⟨"b".data, 0, "y".data⟩]⟩

/-- Claim C10: in both backend variants, calling `query` with the empty string
as `system_prompt` builds exactly the same generation request as calling it
with no `system_prompt` at all — `if not system_prompt` treats both alike and
substitutes the default system instruction. -/
theorem query_empty_prompt_eq_none (docs : List DocRec) (userQ : List Char) :
    genRequestMem docs (some []) userQ = genRequestMem docs none userQ ∧
    genRequestQd docs (some []) userQ = genRequestQd docs none userQ :=
  ⟨rfl, rfl⟩

/-- Counterexample to claim C7: constructing the Qdrant variant with the
endpoint present but the credential (`QDRANT_API_KEY`) absent succeeds, so
absence of the credential is not a fatal startup error as the claim states. -/
theorem initQdrant_missing_key_ok :
    (initQdrant (some "http://h".data) none).isOk = true := by
  decide

/-- Claim C7 (amended): construction of the Qdrant variant fails if and only
if the remote store endpoint (`QDRANT_URL`) is absent or empty; the credential
is passed through unchecked and its absence raises nothing. -/
theorem initQdrant_fails_iff_no_url (url apiKey : Option (List Char)) :
    (initQdrant url apiKey).isOk = false ↔ (url = none ∨ url = some []) := by
  cases url with
  | none => simp [initQdrant, Except.isOk, Except.toBool]
  | some u =>
    by_cases hu : u = [] <;>
      simp [initQdrant, hu, Except.isOk, Except.toBool]

/-- Helper: a failing run of the in-memory embedding loop leaves exactly the
pairs appended before the failing chunk in the store. -/
theorem ingestLoop_fail {α : Type} (E : List Char → Option α) (meta : List Char) :
    ∀ (chunks : List (List Char)) (i : Nat) (st st' : MemState α),
      ingestLoop E meta chunks i st = (none, st') →
      ∃ k, k < chunks.length ∧ E (chunks.getD k []) = none ∧
        st'.embeddings.length = st.embeddings.length + k ∧
        st'.documents.length = st.documents.length + k ∧
        st.embeddings <+: st'.embeddings ∧ st.documents <+: st'.documents := by
  intro chunks
  induction chunks with
  | nil => intro i st st' h; simp [ingestLoop] at h
  | cons c rest ih =>
    intro i st st' h
    rw [ingestLoop] at h
    cases hE : E c with
    | none =>
      rw [hE] at h
      obtain ⟨-, rfl⟩ := Prod.mk.injEq .. ▸ h
      exact ⟨0, by simp, by simpa [List.getD] using hE, by simp, by simp,
        List.prefix_refl _, List.prefix_refl _⟩
    | some v =>
      rw [hE] at h
      obtain ⟨k, hk, hEk, he, hd, hpe, hpd⟩ := ih (i + 1) _ st' h
      refine ⟨k + 1, by simpa using Nat.succ_lt_succ hk, by simpa using hEk,
        ?_, ?_, ?_, ?_⟩
      · simpa [Nat.add_comm, Nat.add_assoc, Nat.add_left_comm] using he
      · simpa [Nat.add_comm, Nat.add_assoc, Nat.add_left_comm] using hd
      · exact (List.prefix_append _ _).trans hpe
      · exact (List.prefix_append _ _).trans hpd

/-- Counterexample to claim C2: on the text `"aa. bb."` (two chunks) with an
embedding call that fails on the second chunk, the in-memory `add_text` fails
but leaves the first chunk's vector and document appended — the index state is
not unchanged by the failed call. -/
theorem addTextMem_partial_write :
    (addTextMem embedFailSecond 5 8 (initMemState (List Int))
        "aa. bb.".data "src".data).1 = none ∧
    (addTextMem embedFailSecond 5 8 (initMemState (List Int))
        "aa. bb.".data "src".data).2 =
      ⟨[[1]], [⟨"src".data, 0, "aa.".data⟩]⟩ := by
  constructor <;> decide

/-- Claim C2 (amended): when the embedding call fails mid-call, the ingestion
call fails with the propagated error in both variants; the Qdrant variant
writes nothing (the batch upsert never runs, its collection is unchanged),
but the in-memory variant keeps the vectors and documents of every chunk
embedded before the failure appended to its parallel lists. -/
theorem ingest_failure_behavior {α : Type} (E : List Char → Option α)
    (maxSize overlap : Int) :
    (∀ (store : List (QPoint α)) (text meta : List Char),
      (addTextQd E maxSize overlap store text meta).1 = none →
      (addTextQd E maxSize overlap store text meta).2 = store) ∧
    (∀ (st st' : MemState α) (text meta : List Char),
      addTextMem E maxSize overlap st text meta = (none, st') →
      ∃ k, k < (chunkText maxSize overlap text).length ∧
        E ((chunkText maxSize overlap text).getD k []) = none ∧
        st'.embeddings.length = st.embeddings.length + k ∧
        st'.documents.length = st.documents.length + k ∧
        st.embeddings <+: st'.embeddings ∧ st.documents <+: st'.documents) := by
  constructor
  · intro store text meta h
    rw [addTextQd] at h ⊢
    cases hq : qIngestLoop E meta (chunkText maxSize overlap text) 0 [] with
    | none => simp [hq]
    | some pts => rw [hq] at h; simp at h
  · intro st st' text meta h
    exact ingestLoop_fail E meta _ 0 st st' h

/-- Witness for `ingest_failure_behavior` at a concrete failing ingestion. -/
theorem ingest_failure_behavior_witness :
    ((addTextQd embedFailSecond 5 8 ([] : List (QPoint (List Int)))
        "aa. bb.".data "src".data).1 = none ∧
      (addTextQd embedFailSecond 5 8 ([] : List (QPoint (List Int)))
        "aa. bb.".data "src".data).2 = []) ∧
    addTextMem embedFailSecond 5 8 (initMemState (List Int))
        "aa. bb.".data "src".data =
      (none, ⟨[[1]], [⟨"src".data, 0, "aa.".data⟩]⟩) ∧
    (∃ k, k < (chunkText 5 8 "aa. bb.".data).length ∧
      embedFailSecond ((chunkText 5 8 "aa. bb.".data).getD k []) = none ∧
      ([[1]] : List (List Int)).length =
        (initMemState (List Int)).embeddings.length + k) := by
  refine ⟨⟨by decide, ?_⟩, ?_, ?_⟩
  · exact (ingest_failure_behavior embedFailSecond 5 8).1 [] _ _ (by decide)
  · decide
  · obtain ⟨k, h1, h2, h3, -⟩ :=
      (ingest_failure_behavior embedFailSecond 5 8).2
        (initMemState (List Int)) ⟨[[1]], [⟨"src".data, 0, "aa.".data⟩]⟩
        "aa. bb.".data "src".data (by decide)
    exact ⟨k, h1, h2, h3⟩

/-- Helper: every run of the in-memory embedding loop — successful or not —
preserves the parallel-array correspondence, because the vector and its
document record are appended together right after each successful embedding. -/
theorem ingestLoop_corresponds {α : Type} (E : List Char → Option α)
    (meta : List Char) :
    ∀ (chunks : List (List Char)) (i : Nat) (st : MemState α) (r : Option Nat)
      (st' : MemState α), ingestLoop E meta chunks i st = (r, st') →
      corresponds E st → corresponds E st' := by
  intro chunks
  induction chunks with
  | nil =>
    intro i st r st' h hc
    rw [ingestLoop] at h
    cases h; exact hc
  | cons c rest ih =>
    intro i st r st' h hc
    rw [ingestLoop] at h
    cases hE : E c with
    | none => rw [hE] at h; cases h; exact hc
    | some v =>
      rw [hE] at h
      refine ih (i + 1) _ r st' h ⟨by simp [hc.1], ?_⟩
      intro j w d hw hd
      have hw' : (st.embeddings ++ [v])[j]? = some w := hw
      have hd' : (st.documents ++ [(⟨meta, i, c⟩ : DocRec)])[j]? = some d := hd
      rcases Nat.lt_trichotomy j st.embeddings.length with hj | hj | hj
      · rw [List.getElem?_append_left hj] at hw'
        rw [List.getElem?_append_left (hc.1 ▸ hj)] at hd'
        exact hc.2 j w d hw' hd'
      · have hj2 : j = st.documents.length := by rw [hj, hc.1]
        rw [hj, List.getElem?_concat_length] at hw'
        rw [hj2, List.getElem?_concat_length] at hd'
        cases hw'; cases hd'
        exact hE
      · rw [List.getElem?_append_right (Nat.le_of_lt hj)] at hw'
        have hne : j - st.embeddings.length ≠ 0 := by omega
        rcases Nat.exists_eq_succ_of_ne_zero hne with ⟨k, hk⟩
        simp [hk] at hw'

/-- Claim C9: in the in-memory variant the two parallel backing lists stay
aligned: the invariant (equal lengths, the vector at position `j` is the
embedding of the document at position `j`) holds after construction and is
preserved by every `add_text` and `add_pdf` call that completes without
error.  `search` and `query` are modelled as pure functions of the state and
cannot change it. -/
theorem parallel_arrays_invariant {α : Type} (E : List Char → Option α)
    (maxSize overlap : Int) :
    corresponds E (initMemState α) ∧
    (∀ (st : MemState α) (text meta : List Char) (n : Nat) (st' : MemState α),
      corresponds E st → addTextMem E maxSize overlap st text meta = (some n, st') →
      corresponds E st') ∧
    (∀ (st : MemState α) (pages : List (List Char)) (meta : List Char) (n : Nat)
      (st' : MemState α),
      corresponds E st → addPdfMem E maxSize overlap st pages meta = (some n, st') →
      corresponds E st') := by
  refine ⟨⟨rfl, ?_⟩, ?_, ?_⟩
  · intro j v d hv _
    simp [initMemState] at hv
  · intro st text meta n st' hc h
    exact ingestLoop_corresponds E meta _ 0 st (some n) st' h hc
  · intro st pages meta n st' hc h
    exact ingestLoop_corresponds E meta _ 0 st (some n) st' h hc

/-- Witness for `parallel_arrays_invariant` at a concrete ingestion. -/
theorem parallel_arrays_invariant_witness :
    corresponds embedLen (initMemState (List Int)) ∧
    addTextMem embedLen 5 8 (initMemState (List Int)) "aa. bb.".data "src".data =
      (some 2,
        ⟨[[3], [7]],
         [⟨"src".data, 0, "aa.".data⟩, ⟨"src".data, 1, "aa. bb.".data⟩]⟩) ∧
    corresponds embedLen
      ⟨[[3], [7]],
       [⟨"src".data, 0, "aa.".data⟩, ⟨"src".data, 1, "aa. bb.".data⟩]⟩ := by
  have h0 : corresponds embedLen (initMemState (List Int)) :=
    (parallel_arrays_invariant embedLen 5 8).1
  have h1 : addTextMem embedLen 5 8 (initMemState (List Int))
      "aa. bb.".data "src".data =
      (some 2,
        ⟨[[3], [7]],
         [⟨"src".data, 0, "aa.".data⟩, ⟨"src".data, 1, "aa. bb.".data⟩]⟩) := by
    decide
  exact ⟨h0, h1, (parallel_arrays_invariant embedLen 5 8).2.1 _ _ _ 2 _ h0 h1⟩

/-- Helper: dropping leading whitespace ignores a whitespace character in front. -/
theorem dropWhile_space_cons (y : List Char) :
    List.dropWhile pyIsSpace (' ' :: y) = List.dropWhile pyIsSpace y := by
  simp [List.dropWhile, pyIsSpace]

/-- Helper: a trailing space never changes the result of `str.strip()`. -/
theorem strip_append_space (y : List Char) : strip (y ++ [' ']) = strip y := by
  unfold strip
  cases hd : List.dropWhile pyIsSpace y with
  | nil =>
    rw [List.dropWhile_append, hd]
    simp [List.dropWhile, pyIsSpace]
  | cons a d =>
    rw [List.dropWhile_append, hd]
    simp only [List.isEmpty_cons, Bool.false_eq_true, if_false]
    rw [List.reverse_append]
    simp only [List.reverse_cons, List.reverse_nil, List.nil_append,
      List.singleton_append]
    rw [dropWhile_space_cons]

/-- Helper: appending a space to the input either appends a space to the
whitespace-collapsed output or leaves it unchanged. -/
theorem collapseAux_append_space :
    ∀ (x : List Char) (b : Bool),
      collapseAux b (x ++ [' ']) = collapseAux b x ++ [' '] ∨
      collapseAux b (x ++ [' ']) = collapseAux b x := by
  intro x
  induction x with
  | nil =>
    intro b
    cases b with
    | true => right; simp [collapseAux, pyIsSpace]
    | false => left; simp [collapseAux, pyIsSpace]
  | cons c x ih =>
    intro b
    by_cases hc : pyIsSpace c = true
    · cases b with
      | true =>
        simpa [collapseAux, hc] using ih true
      | false =>
        rcases ih true with h | h <;> simp [collapseAux, hc, h]
    · rcases ih b with h | h <;>
        simp [collapseAux, hc, h] <;>
        rcases ih false with h' | h' <;> simp [h']

/-- Helper: a trailing space never changes the cleaned text of `_chunk_text`. -/
theorem normText_append_space (y : List Char) :
    normText (y ++ [' ']) = normText y := by
  unfold normText collapseWS
  rcases collapseAux_append_space y false with h | h <;> rw [h]
  exact strip_append_space _

/-- Helper: unfolding the page-concatenation fold of `add_pdf`. -/
theorem pdfText_foldl :
    ∀ (ps : List (List Char)) (acc : List Char),
      ps.foldl (fun acc p => if p ≠ [] then acc ++ p ++ [' '] else acc) acc =
        acc ++ pdfText ps := by
  intro ps
  induction ps with
  | nil => intro acc; simp [pdfText]
  | cons p ps ih =>
    intro acc
    have h1 : List.foldl (fun acc p => if p ≠ [] then acc ++ p ++ [' '] else acc)
        acc (p :: ps) =
        List.foldl (fun acc p => if p ≠ [] then acc ++ p ++ [' '] else acc)
          (if p ≠ [] then acc ++ p ++ [' '] else acc) ps := rfl
    have h2 : pdfText (p :: ps) =
        List.foldl (fun acc p => if p ≠ [] then acc ++ p ++ [' '] else acc)
          (if p ≠ [] then [] ++ p ++ [' '] else []) ps := rfl
    rw [h1, ih, h2, ih]
    by_cases hp : p = []
    · rw [if_neg (by simp [hp]), if_neg (by simp [hp])]
      simp
    · rw [if_pos (by simp [hp]), if_pos (by simp [hp])]
      simp [List.append_assoc]

/-- Helper: the cons unfolding of `pdfText`. -/
theorem pdfText_cons (p : List Char) (ps : List (List Char)) :
    pdfText (p :: ps) = (if p ≠ [] then p ++ [' '] else []) ++ pdfText ps := by
  have h2 : pdfText (p :: ps) =
      List.foldl (fun acc p => if p ≠ [] then acc ++ p ++ [' '] else acc)
        (if p ≠ [] then [] ++ p ++ [' '] else []) ps := rfl
  rw [h2, pdfText_foldl]
  by_cases hp : p = []
  · rw [if_neg (by simp [hp]), if_neg (by simp [hp])]
  · rw [if_pos (by simp [hp]), if_pos (by simp [hp])]
    simp

/-- Helper: `add_pdf` builds exactly the nonempty page texts joined by single
spaces, with one trailing space when there is at least one such page. -/
theorem pdfText_eq_joinSp (pages : List (List Char)) :
    pdfText pages =
      if pages.filter (fun p => p ≠ []) = [] then []
      else joinSp (pages.filter (fun p => p ≠ [])) ++ [' '] := by
  induction pages with
  | nil => simp [pdfText]
  | cons p ps ih =>
    rw [pdfText_cons]
    by_cases hp : p = []
    · rw [if_neg (by simp [hp]), List.nil_append]
      rw [show (p :: ps).filter (fun p => p ≠ []) = ps.filter (fun p => p ≠ [])
        by simp [List.filter_cons, hp]]
      exact ih
    · rw [if_pos (by simp [hp])]
      rw [show (p :: ps).filter (fun p => p ≠ []) =
          p :: ps.filter (fun p => p ≠ []) by simp [List.filter_cons, hp]]
      cases hf : ps.filter (fun p => p ≠ []) with
      | nil =>
        rw [hf] at ih
        rw [if_pos rfl] at ih
        rw [ih, if_neg (by simp), List.append_nil]
        rfl
      | cons q rest =>
        rw [hf] at ih
        rw [if_neg (by simp)] at ih
        rw [ih, if_neg (by simp)]
        show p ++ [' '] ++ (joinSp (q :: rest) ++ [' ']) =
          (p ++ ' ' :: joinSp (q :: rest)) ++ [' ']
        simp [List.append_assoc]

/-- Claim C8: ingesting a PDF whose pages yield extractable texts (pages
yielding no text skipped) produces exactly the same chunks — and hence the
same ingestion behaviour in both variants — as ingesting the plain text
formed by joining the extractable page texts with a single separating
space. -/
theorem pdf_ingest_eq_text_ingest {α : Type} (E : List Char → Option α)
    (maxSize overlap : Int) :
    (∀ pages : List (List Char),
      chunkText maxSize overlap (pdfText pages) =
        chunkText maxSize overlap (joinSp (pages.filter (fun p => p ≠ [])))) ∧
    (∀ (st : MemState α) (pages : List (List Char)) (meta : List Char),
      addPdfMem E maxSize overlap st pages meta =
        addTextMem E maxSize overlap st (joinSp (pages.filter (fun p => p ≠ []))) meta) ∧
    (∀ (store : List (QPoint α)) (pages : List (List Char)) (meta : List Char),
      addPdfQd E maxSize overlap store pages meta =
        addTextQd E maxSize overlap store (joinSp (pages.filter (fun p => p ≠ []))) meta) := by
  have key : ∀ pages : List (List Char),
      chunkText maxSize overlap (pdfText pages) =
        chunkText maxSize overlap (joinSp (pages.filter (fun p => p ≠ []))) := by
    intro pages
    rw [pdfText_eq_joinSp]
    cases hf : pages.filter (fun p => p ≠ []) with
    | nil => rw [if_pos rfl]; rfl
    | cons q rest =>
      rw [if_neg (by simp)]
      unfold chunkText
      rw [normText_append_space]
  refine ⟨key, ?_, ?_⟩
  · intro st pages meta
    unfold addPdfMem addTextMem
    rw [key]
  · intro store pages meta
    unfold addPdfQd addTextQd
    rw [key]

/-- Helper: `str.strip()` yields the empty string exactly on all-whitespace
input. -/
theorem strip_eq_nil_iff (l : List Char) :
    strip l = [] ↔ l.all pyIsSpace = true := by
  unfold strip
  rw [List.reverse_eq_nil_iff, List.dropWhile_eq_nil_iff, List.all_eq_true]
  constructor
  · intro h x hx
    rcases (List.takeWhile_append_dropWhile pyIsSpace l) ▸ hx |> List.mem_append.1
      with hx' | hx'
    · exact List.mem_takeWhile_imp hx'
    · exact h x (by simpa using hx')
  · intro h x hx
    have hx' : x ∈ List.dropWhile pyIsSpace l := by simpa using hx
    exact h x ((List.dropWhile_suffix pyIsSpace).subset hx')

/-- Helper: whitespace collapsing preserves all-whitespaceness. -/
theorem collapseAux_all_space :
    ∀ (l : List Char) (b : Bool),
      (collapseAux b l).all pyIsSpace = l.all pyIsSpace := by
  intro l
  induction l with
  | nil => intro b; rfl
  | cons c cs ih =>
    intro b
    by_cases hc : pyIsSpace c = true
    · cases b with
      | true => simp [collapseAux, hc, ih]
      | false =>
        rw [show collapseAux false (c :: cs) =
            if pyIsSpace c then
              if false then collapseAux true cs else ' ' :: collapseAux true cs
            else c :: collapseAux false cs from rfl]
        rw [if_pos hc, if_neg (by simp)]
        simp [List.all_cons, ih, hc, (by decide : pyIsSpace ' ' = true)]
    · simp [collapseAux, hc, ih]

/-- Helper: the cleaned text is empty exactly on all-whitespace input. -/
theorem normText_eq_nil_iff (t : List Char) :
    normText t = [] ↔ t.all pyIsSpace = true := by
  unfold normText collapseWS
  rw [strip_eq_nil_iff, collapseAux_all_space]

/-- Helper: the chunk loop only ever appends to the accumulated chunk list. -/
theorem chunkLoop_prefix (maxSize overlap : Int) :
    ∀ (sents chunks : List (List Char)) (cur : List Char),
      chunks <+: chunkLoop maxSize overlap sents chunks cur := by
  intro sents
  induction sents with
  | nil =>
    intro chunks cur
    rw [chunkLoop]
    split
    · exact List.prefix_append _ _
    · exact List.prefix_refl _
  | cons s rest ih =>
    intro chunks cur
    rw [chunkLoop]
    split
    · exact (List.prefix_append _ _).trans (ih _ _)
    · exact ih _ _

/-- Helper: if the chunk loop returns no chunks then the pending buffer and
every remaining sentence are all-whitespace. -/
theorem chunkLoop_eq_nil (maxSize overlap : Int) :
    ∀ (sents chunks : List (List Char)) (cur : List Char),
      chunkLoop maxSize overlap sents chunks cur = [] →
      cur.all pyIsSpace = true ∧ ∀ s ∈ sents, s.all pyIsSpace = true := by
  intro sents
  induction sents with
  | nil =>
    intro chunks cur h
    rw [chunkLoop] at h
    split at h
    · exact absurd h (by simp)
    · refine ⟨?_, by simp⟩
      rw [← strip_eq_nil_iff]
      by_contra hne
      exact (by assumption : ¬ strip cur ≠ []) hne
  | cons s rest ih =>
    intro chunks cur h
    rw [chunkLoop] at h
    split at h
    · have hpre := chunkLoop_prefix maxSize overlap rest
        (chunks ++ [strip cur]) (joinSp (seedWords overlap cur) ++ [' '] ++ s ++ [' '])
      rw [h] at hpre
      exact absurd (List.eq_nil_of_prefix_nil hpre) (by simp)
    · obtain ⟨hall, hrest⟩ := ih chunks (cur ++ s ++ [' ']) h
      rw [List.append_assoc, List.all_append] at hall
      rw [List.all_append] at hall
      simp only [Bool.and_eq_true] at hall
      refine ⟨hall.1, ?_⟩
      intro s' hs'
      rcases List.mem_cons.1 hs' with rfl | hs'
      · exact hall.2.1
      · exact hrest s' hs'

/-- Helper: the head sentence returned by the splitter extends the pending
accumulator. -/
theorem splitSentAux_head :
    ∀ (l acc : List Char), ∃ w : List Char,
      (splitSentAux false l acc).head? = some (acc.reverse ++ w) := by
  intro l
  induction l with
  | nil => intro acc; exact ⟨[], by simp [splitSentAux]⟩
  | cons c cs ih =>
    intro acc
    have hdef : splitSentAux false (c :: cs) acc =
        if sentBoundary c acc then acc.reverse :: splitSentAux true cs []
        else splitSentAux false cs (c :: acc) := rfl
    cases hb : sentBoundary c acc with
    | true => exact ⟨[], by rw [hdef, if_pos hb]; simp⟩
    | false =>
      obtain ⟨w, hw⟩ := ih (c :: acc)
      refine ⟨[c] ++ w, ?_⟩
      rw [hdef, if_neg (by simp [hb]), hw]
      simp

/-- Helper: a nonempty stripped string starts with a non-whitespace character. -/
theorem strip_head_not_space (l : List Char) (c : Char) (rest : List Char)
    (h : strip l = c :: rest) : pyIsSpace c = false := by
  have hsuf : List.dropWhile pyIsSpace ((List.dropWhile pyIsSpace l).reverse)
      <:+ (List.dropWhile pyIsSpace l).reverse := List.dropWhile_suffix _
  have hpre : strip l <+: List.dropWhile pyIsSpace l := by
    have h2 := List.reverse_prefix.mpr hsuf
    rw [List.reverse_reverse] at h2
    exact h2
  obtain ⟨t, ht⟩ := hpre
  rw [h] at ht
  have hne : List.dropWhile pyIsSpace l ≠ [] := by
    rw [← ht]; simp
  have hh := List.head_dropWhile_not pyIsSpace l hne
  have h1 : (List.dropWhile pyIsSpace l).head? = some c := by
    rw [← ht]; rfl
  rw [List.head?_eq_head hne] at h1
  injection h1 with h1
  rwa [h1] at hh

/-- Claim C4: `_chunk_text` returns at least one chunk exactly when the input
contains a non-whitespace character, and zero chunks when the input is empty
or whitespace-only — for every size configuration. -/
theorem chunkText_eq_nil_iff (maxSize overlap : Int) (t : List Char) :
    chunkText maxSize overlap t = [] ↔ t.all pyIsSpace = true := by
  constructor
  · intro h
    rw [← normText_eq_nil_iff]
    obtain ⟨-, hsents⟩ := chunkLoop_eq_nil maxSize overlap _ [] [] h
    cases hnt : normText t with
    | nil => rfl
    | cons c rest =>
      exfalso
      have hc : pyIsSpace c = false := by
        have : strip (collapseWS t) = c :: rest := hnt
        exact strip_head_not_space _ _ _ this
      have hb : sentBoundary c [] = false := by simp [sentBoundary]
      have hstep : splitSent (c :: rest) = splitSentAux false rest [c] := by
        show (if sentBoundary c [] then
            ([] : List Char).reverse :: splitSentAux true rest []
          else splitSentAux false rest [c]) = splitSentAux false rest [c]
        rw [hb]
        simp
      obtain ⟨w, hw⟩ := splitSentAux_head rest [c]
      have hmem : (c :: w) ∈ splitSent (normText t) := by
        rw [hnt, hstep]
        exact List.mem_of_mem_head? (by rw [hw]; simp)
      have := hsents _ hmem
      simp [hc] at this
  · intro h
    have hnt : normText t = [] := (normText_eq_nil_iff t).mpr h
    rw [chunkText, hnt]
    show chunkLoop maxSize overlap [[]] [] [] = []
    rw [chunkLoop, if_neg (by rintro ⟨-, h2⟩; exact h2 rfl)]
    rw [chunkLoop, if_neg (by intro hne; exact hne (by decide))]

/-- Helper: the exact result length of the in-memory `search` as a function of
`top_k` and the collection size, covering the negative-slice behaviour of
`np.argsort(scores)[-top_k:]` for negative `top_k`. -/
theorem searchMem_length (q : List ℝ) (st : MemState (List ℝ)) (topK : Int)
    (hlen : st.embeddings.length = st.documents.length) :
    (searchMem q st topK).length =
      if min topK (st.documents.length : Int) = 0 then 0
      else if 0 ≤ topK then min topK.toNat st.documents.length
      else st.documents.length - min st.documents.length (-topK).toNat := by
  by_cases hk : min topK ((st.documents.length : Nat) : Int) = 0
  · rw [if_pos hk]
    simp only [searchMem, hk, if_pos]
    rfl
  · rw [if_neg hk]
    have hlen2 : (argsortAsc (st.embeddings.map (fun d => cosineSim q d))).length =
        st.documents.length := by
      rw [argsortAsc, List.length_mergeSort, List.length_range,
        List.length_map, hlen]
    simp only [searchMem, hk, if_false]
    rw [List.length_map, List.length_reverse, pyDropFrom]
    rcases lt_or_gt_of_ne hk with hneg | hpos
    · rw [if_pos (by omega), List.length_drop, hlen2,
        if_neg (by intro h0; omega)]
      omega
    · rw [if_neg (by omega), List.length_drop, hlen2,
        if_pos (by omega)]
      omega

/-- Counterexample to claim C1: the in-memory `search` with `top_k = -1` on a
two-chunk collection returns one result, not the empty sequence the claim
requires for `top_k ≤ 0` — `min(top_k, n)` keeps a negative `top_k`, and the
Python slice `scores_argsort[-top_k:]` then drops from the front. -/
theorem searchMem_negative_topk : (searchMem [1, 0] stTwo (-1)).length = 1 := by
  rw [searchMem_length [1, 0] stTwo (-1) rfl]
  decide

/-- Claim C1 (amended): for every `top_k ≥ 0`, the in-memory `search` returns
exactly `min(top_k, collection_size)` results (so `top_k = 0` or an empty
collection yield the empty result, without error); but for `top_k < 0` it
returns `size - min(size, -top_k)` results instead of an empty sequence.
The Qdrant variant merely forwards `top_k` to the remote service. -/
theorem search_length_spec (q : List ℝ) (st : MemState (List ℝ)) (topK : Int)
    (hlen : st.embeddings.length = st.documents.length) :
    (0 ≤ topK →
      (searchMem q st topK).length = min topK.toNat st.documents.length) ∧
    (topK < 0 →
      (searchMem q st topK).length =
        st.documents.length - min st.documents.length (-topK).toNat) := by
  refine ⟨?_, ?_⟩ <;> intro h <;> rw [searchMem_length q st topK hlen] <;>
    split_ifs <;> omega

/-- Witness for `search_length_spec` on a concrete collection. -/
theorem search_length_spec_witness :
    stTwo.embeddings.length = stTwo.documents.length ∧ (0 : Int) ≤ 5 ∧
    (searchMem [1, 0] stTwo 5).length = min (5 : Int).toNat stTwo.documents.length :=
  ⟨rfl, by decide, (search_length_spec [1, 0] stTwo 5 rfl).1 (by decide)⟩

/-- Helper: a dot product of a vector with itself is nonnegative. -/
theorem dotL_self_nonneg : ∀ x : List ℝ, 0 ≤ dotL x x := by
  intro x
  induction x with
  | nil => simp [dotL]
  | cons a xs ih =>
    have h : dotL (a :: xs) (a :: xs) = a * a + dotL xs xs := by
      simp [dotL]
    rw [h]
    nlinarith

/-- Helper: the list dot product as a finite sum over padded coordinates. -/
theorem dotL_eq_sum :
    ∀ (N : Nat) (x y : List ℝ), x.length ≤ N → y.length ≤ N →
      dotL x y = ∑ i ∈ Finset.range N, x.getD i 0 * y.getD i 0 := by
  intro N
  induction N with
  | zero =>
    intro x y hx hy
    rw [Nat.le_zero, List.length_eq_zero] at hx
    subst hx
    simp [dotL]
  | succ N ih =>
    intro x y hx hy
    cases x with
    | nil => simp [dotL]
    | cons a xs =>
      cases y with
      | nil => simp [dotL]
      | cons b ys =>
        rw [Finset.sum_range_succ']
        simp only [List.getD_cons_succ, List.getD_cons_zero]
        rw [← ih xs ys (by simpa using hx) (by simpa using hy)]
        show dotL (a :: xs) (b :: ys) = dotL xs ys + a * b
        simp [dotL]
        ring

/-- Helper: Cauchy–Schwarz for the embedded `np` dot product and norms. -/
theorem abs_dotL_le (x y : List ℝ) : |dotL x y| ≤ normL x * normL y := by
  have hx : x.length ≤ max x.length y.length := le_max_left _ _
  have hy : y.length ≤ max x.length y.length := le_max_right _ _
  have hxy := dotL_eq_sum (max x.length y.length) x y hx hy
  have hxx := dotL_eq_sum (max x.length y.length) x x hx hx
  have hyy := dotL_eq_sum (max x.length y.length) y y hy hy
  have hcs := Finset.sum_mul_sq_le_sq_mul_sq (Finset.range (max x.length y.length))
    (fun i => x.getD i 0) (fun i => y.getD i 0)
  have hsq : (dotL x y) ^ 2 ≤ dotL x x * dotL y y := by
    rw [hxy, hxx, hyy]
    calc (∑ i ∈ Finset.range (max x.length y.length), x.getD i 0 * y.getD i 0) ^ 2
        ≤ (∑ i ∈ Finset.range (max x.length y.length), x.getD i 0 ^ 2) *
            ∑ i ∈ Finset.range (max x.length y.length), y.getD i 0 ^ 2 := hcs
      _ = (∑ i ∈ Finset.range (max x.length y.length), x.getD i 0 * x.getD i 0) *
            ∑ i ∈ Finset.range (max x.length y.length), y.getD i 0 * y.getD i 0 := by
          simp [sq]
  calc |dotL x y| = Real.sqrt ((dotL x y) ^ 2) := (Real.sqrt_sq_eq_abs _).symm
    _ ≤ Real.sqrt (dotL x x * dotL y y) := Real.sqrt_le_sqrt hsq
    _ = normL x * normL y := by
        rw [Real.sqrt_mul (dotL_self_nonneg x)]
        rfl

/-- Helper: the cosine similarity of nonzero vectors lies in `[-1, 1]`. -/
theorem cosineSim_bounds (x y : List ℝ) (hx : dotL x x ≠ 0) (hy : dotL y y ≠ 0) :
    -1 ≤ cosineSim x y ∧ cosineSim x y ≤ 1 := by
  have hnx : 0 < normL x :=
    Real.sqrt_pos.mpr (lt_of_le_of_ne (dotL_self_nonneg x) (Ne.symm hx))
  have hny : 0 < normL y :=
    Real.sqrt_pos.mpr (lt_of_le_of_ne (dotL_self_nonneg y) (Ne.symm hy))
  have hprod : 0 < normL x * normL y := mul_pos hnx hny
  have habs := abs_dotL_le x y
  obtain ⟨hlo, hhi⟩ := abs_le.mp habs
  constructor
  · rw [cosineSim]
    rw [le_div_iff₀ hprod]
    linarith
  · rw [cosineSim]
    rw [div_le_one hprod]
    exact hhi

/-- Helper: `np.argsort` yields a permutation of the index range. -/
theorem argsortAsc_perm (xs : List ℝ) :
    (argsortAsc xs).Perm (List.range xs.length) :=
  List.mergeSort_perm _ _

/-- Helper: `np.argsort` lists indices in ascending order of score. -/
theorem argsortAsc_sorted (xs : List ℝ) :
    (argsortAsc xs).Pairwise (fun i j => xs.getD i 0 ≤ xs.getD j 0) := by
  have htrans : ∀ a b c : Nat,
      (fun i j => decide (xs.getD i 0 ≤ xs.getD j 0)) a b = true →
      (fun i j => decide (xs.getD i 0 ≤ xs.getD j 0)) b c = true →
      (fun i j => decide (xs.getD i 0 ≤ xs.getD j 0)) a c = true := by
    intro a b c hab hbc
    simp only [decide_eq_true_eq] at hab hbc ⊢
    exact le_trans hab hbc
  have htotal : ∀ a b : Nat,
      ((fun i j => decide (xs.getD i 0 ≤ xs.getD j 0)) a b ||
       (fun i j => decide (xs.getD i 0 ≤ xs.getD j 0)) b a) = true := by
    intro a b
    simp only [Bool.or_eq_true, decide_eq_true_eq]
    exact le_total _ _
  have h := @List.sorted_mergeSort Nat
    (fun i j => decide (xs.getD i 0 ≤ xs.getD j 0)) htrans htotal
    (List.range xs.length)
  exact h.imp (fun hab => of_decide_eq_true hab)

/-- Helper: mapped element value through `List.getD` below the length. -/
theorem getD_map_lt {α β : Type} (f : α → β) (l : List α) (i : Nat)
    (hi : i < l.length) (d : β) (d' : α) :
    (l.map f).getD i d = f (l.getD i d') := by
  rw [List.getD_eq_getElem?_getD, List.getD_eq_getElem?_getD,
    List.getElem?_map, List.getElem?_eq_getElem hi]
  rfl

/-- Helper: every index produced by the slice of the in-memory `search` is an
index of the embedding list. -/
theorem searchMem_index_lt (q : List ℝ) (st : MemState (List ℝ)) (topK : Int)
    (i : Nat)
    (hi : i ∈ (pyDropFrom (-(min topK (st.documents.length : Int)))
      (argsortAsc (st.embeddings.map (fun d => cosineSim q d)))).reverse) :
    i < st.embeddings.length := by
  rw [List.mem_reverse] at hi
  have hi2 : i ∈ argsortAsc (st.embeddings.map (fun d => cosineSim q d)) := by
    rw [pyDropFrom] at hi
    split at hi <;> exact List.mem_of_mem_drop hi
  have := (argsortAsc_perm _).mem_iff.mp hi2
  simpa using this

/-- Claim C3: on the in-memory variant, every returned score is the cosine
similarity between the query vector and the stored vector at the returned
document's position, all scores lie in `[-1, 1]` when the query and the
stored vectors are nonzero, and the returned sequence is sorted in descending
order of score. -/
theorem search_scores_cosine (q : List ℝ) (st : MemState (List ℝ)) (topK : Int)
    (hne : st.embeddings ≠ []) (hq : dotL q q ≠ 0)
    (hv : ∀ v ∈ st.embeddings, dotL v v ≠ 0) :
    (∀ p ∈ searchMem q st topK, ∃ i, i < st.embeddings.length ∧
        p.2 = cosineSim q (st.embeddings.getD i []) ∧
        p.1 = st.documents.getD i default) ∧
    (∀ p ∈ searchMem q st topK, -1 ≤ p.2 ∧ p.2 ≤ 1) ∧
    ((searchMem q st topK).map Prod.snd).Pairwise (fun a b => b ≤ a) := by
  have hchar : ∀ p ∈ searchMem q st topK, ∃ i, i < st.embeddings.length ∧
      p.2 = cosineSim q (st.embeddings.getD i []) ∧
      p.1 = st.documents.getD i default := by
    intro p hp
    rw [searchMem] at hp
    split at hp
    · simp at hp
    · obtain ⟨i, hi, hpi⟩ := List.mem_map.1 hp
      have hilt := searchMem_index_lt q st topK i hi
      refine ⟨i, hilt, ?_, ?_⟩
      · rw [← hpi]
        show (st.embeddings.map (fun d => cosineSim q d)).getD i 0 = _
        rw [getD_map_lt _ _ _ hilt 0 []]
      · rw [← hpi]
  refine ⟨hchar, ?_, ?_⟩
  · intro p hp
    obtain ⟨i, hilt, hscore, -⟩ := hchar p hp
    have hmem : st.embeddings.getD i [] ∈ st.embeddings := by
      rw [List.getD_eq_getElem?_getD, List.getElem?_eq_getElem hilt]
      exact List.getElem_mem hilt
    rw [hscore]
    exact cosineSim_bounds q _ hq (hv _ hmem)
  · rw [searchMem]
    split
    · simp
    · rw [List.map_map]
      have hsorted := argsortAsc_sorted (st.embeddings.map (fun d => cosineSim q d))
      have hsub : (pyDropFrom (-(min topK (st.documents.length : Int)))
          (argsortAsc (st.embeddings.map (fun d => cosineSim q d)))).Sublist
          (argsortAsc (st.embeddings.map (fun d => cosineSim q d))) := by
        rw [pyDropFrom]
        split <;> exact List.drop_sublist _ _
      have hdrop := hsorted.sublist hsub
      have hrev := List.pairwise_reverse.mpr hdrop
      rw [List.pairwise_map]
      exact hrev.imp (fun hab => hab)

/-- Witness for `search_scores_cosine` on a concrete two-vector collection. -/
theorem search_scores_cosine_witness :
    (stTwo.embeddings ≠ [] ∧ dotL [1, 0] [1, 0] ≠ 0 ∧
      ∀ v ∈ stTwo.embeddings, dotL v v ≠ 0) ∧
    (∀ p ∈ searchMem [1, 0] stTwo 2, -1 ≤ p.2 ∧ p.2 ≤ 1) := by
  have h1 : stTwo.embeddings ≠ [] := by simp [stTwo]
  have h2 : dotL [(1 : ℝ), 0] [1, 0] ≠ 0 := by
    simp [dotL]
  have h3 : ∀ v ∈ stTwo.embeddings, dotL v v ≠ 0 := by
    intro v hvm
    simp only [stTwo, List.mem_cons, List.not_mem_nil, or_false] at hvm
    rcases hvm with rfl | rfl <;> simp [dotL]
  exact ⟨⟨h1, h2, h3⟩, (search_scores_cosine [1, 0] stTwo 2 h1 h2 h3).2.1⟩

/-- Helper: every word produced by `str.split()` is nonempty and
whitespace-free. -/
theorem splitWordsAux_good :
    ∀ (l acc : List Char), acc.all (fun c => !pyIsSpace c) = true →
      ∀ w ∈ splitWordsAux l acc, w ≠ [] ∧ w.all (fun c => !pyIsSpace c) = true := by
  intro l
  induction l with
  | nil =>
    intro acc hacc w hw
    rw [splitWordsAux] at hw
    split at hw
    · simp at hw
    · rw [List.mem_singleton] at hw
      subst hw
      refine ⟨by simpa using (by assumption : ¬ acc = []), by simpa using hacc⟩
  | cons c cs ih =>
    intro acc hacc w hw
    rw [splitWordsAux] at hw
    split at hw
    · split at hw
      · exact ih [] rfl w hw
      · rcases List.mem_cons.1 hw with rfl | hw'
        · refine ⟨by simpa using (by assumption : ¬ acc = []), by simpa using hacc⟩
        · exact ih [] rfl w hw'
    · refine ih (c :: acc) ?_ w hw
      rw [List.all_cons, hacc]
      simpa using (by assumption : ¬ pyIsSpace c = true)

/-- Helper: `str.split()` of all-whitespace input only flushes the pending
accumulator. -/
theorem splitWordsAux_all_space :
    ∀ (b acc : List Char), b.all pyIsSpace = true →
      splitWordsAux b acc = if acc = [] then [] else [acc.reverse] := by
  intro b
  induction b with
  | nil => intro acc _; rw [splitWordsAux]
  | cons c cs ih =>
    intro acc hall
    rw [List.all_cons, Bool.and_eq_true] at hall
    rw [splitWordsAux, if_pos hall.1]
    split
    · rw [ih [] hall.2, if_pos rfl]
    · rw [ih [] hall.2, if_pos rfl]

/-- Helper: trailing all-whitespace input does not change `str.split()`. -/
theorem splitWordsAux_append_space :
    ∀ (a acc b : List Char), b.all pyIsSpace = true →
      splitWordsAux (a ++ b) acc = splitWordsAux a acc := by
  intro a
  induction a with
  | nil =>
    intro acc b hb
    rw [List.nil_append, splitWordsAux_all_space b acc hb, splitWordsAux]
  | cons c cs ih =>
    intro acc b hb
    rw [List.cons_append, splitWordsAux, splitWordsAux]
    split
    · split
      · exact ih [] b hb
      · rw [ih [] b hb]
    · exact ih (c :: acc) b hb

/-- Helper: a space splits the word scan into two independent scans. -/
theorem splitWordsAux_split_at_space :
    ∀ (x acc b : List Char),
      splitWordsAux (x ++ ' ' :: b) acc =
        splitWordsAux (x ++ [' ']) acc ++ splitWordsAux b [] := by
  intro x
  induction x with
  | nil =>
    intro acc b
    rw [List.nil_append, List.nil_append]
    have h1 : splitWordsAux (' ' :: b) acc =
        if acc = [] then splitWordsAux b []
        else acc.reverse :: splitWordsAux b [] := by
      rw [splitWordsAux, if_pos (by decide)]
    have h2 : splitWordsAux [' '] acc =
        if acc = [] then [] else [acc.reverse] := by
      rw [splitWordsAux, if_pos (by decide)]
      split
      · rw [splitWordsAux, if_pos rfl]
      · rw [splitWordsAux, if_pos rfl]
    rw [h1, h2]
    by_cases hacc : acc = []
    · rw [if_pos hacc, if_pos hacc, List.nil_append]
    · rw [if_neg hacc, if_neg hacc]
      rfl
  | cons c cs ih =>
    intro acc b
    rw [List.cons_append, List.cons_append, splitWordsAux, splitWordsAux]
    split
    · split
      · exact ih [] b
      · rw [ih [] b]
        rfl
    · exact ih (c :: acc) b

/-- Helper: `str.split()` distributes over an append whose first part ends in
a space. -/
theorem splitWords_append (x b : List Char) :
    splitWords (x ++ [' '] ++ b) = splitWords (x ++ [' ']) ++ splitWords b := by
  rw [splitWords, splitWords, splitWords, List.append_assoc, List.singleton_append]
  exact splitWordsAux_split_at_space x [] b

/-- Helper: scanning one whitespace-free word followed by a space yields that
word appended to the pending accumulator. -/
theorem splitWordsAux_single_word :
    ∀ (w acc : List Char), w.all (fun c => !pyIsSpace c) = true →
      splitWordsAux (w ++ [' ']) acc =
        if acc = [] ∧ w = [] then [] else [acc.reverse ++ w] := by
  intro w
  induction w with
  | nil =>
    intro acc _
    rw [List.nil_append, splitWordsAux, if_pos (by decide)]
    split
    · rw [if_pos ⟨by assumption, rfl⟩]
      rw [splitWordsAux, if_pos rfl]
    · rw [if_neg (by rintro ⟨h1, -⟩; exact (by assumption : ¬ acc = []) h1)]
      rw [splitWordsAux, if_pos rfl]
      simp
  | cons c cs ih =>
    intro acc hall
    rw [List.all_cons, Bool.and_eq_true] at hall
    rw [List.cons_append, splitWordsAux,
      if_neg (by simpa using hall.1)]
    rw [ih (c :: acc) hall.2]
    rw [if_neg (by rintro ⟨h1, -⟩; exact List.cons_ne_nil c acc h1)]
    rw [if_neg (by rintro ⟨-, h2⟩; exact List.cons_ne_nil c cs h2)]
    simp

/-- Helper: `str.split()` recovers the word list from a single-space join
followed by a space. -/
theorem splitWords_joinSp :
    ∀ (ws : List (List Char)) (b : List Char),
      (∀ w ∈ ws, w ≠ [] ∧ w.all (fun c => !pyIsSpace c) = true) →
      splitWords (joinSp ws ++ [' '] ++ b) = ws ++ splitWords b := by
  intro ws
  induction ws with
  | nil =>
    intro b _
    rw [joinSp, List.nil_append, List.singleton_append, splitWords, splitWords]
    rw [splitWordsAux, if_pos (by decide), if_pos rfl, List.nil_append]
  | cons w ws ih =>
    intro b hgood
    cases ws with
    | nil =>
      rw [joinSp, splitWords_append, List.singleton_append]
      rw [splitWords, splitWordsAux_single_word w [] (hgood w (by simp)).2]
      rw [if_neg (by rintro ⟨-, h2⟩; exact (hgood w (by simp)).1 h2)]
      simp
    | cons w2 ws2 =>
      rw [show joinSp (w :: w2 :: ws2) = w ++ ' ' :: joinSp (w2 :: ws2) from rfl]
      have hassoc : (w ++ ' ' :: joinSp (w2 :: ws2)) ++ [' '] ++ b =
          w ++ ' ' :: (joinSp (w2 :: ws2) ++ [' '] ++ b) := by
        simp [List.append_assoc]
      rw [hassoc, splitWords, splitWordsAux_split_at_space]
      rw [show splitWordsAux (joinSp (w2 :: ws2) ++ [' '] ++ b) [] =
          splitWords (joinSp (w2 :: ws2) ++ [' '] ++ b) from rfl]
      rw [ih b (fun w' hw' => hgood w' (by simp [hw']))]
      rw [show splitWordsAux (w ++ [' ']) [] = splitWords (w ++ [' ']) from rfl]
      rw [splitWords, splitWordsAux_single_word w [] (hgood w (by simp)).2]
      rw [if_neg (by rintro ⟨-, h2⟩; exact (hgood w (by simp)).1 h2)]
      simp

/-- Helper: leading whitespace does not change `str.split()`. -/
theorem splitWords_dropWhile (l : List Char) :
    splitWords (List.dropWhile pyIsSpace l) = splitWords l := by
  induction l with
  | nil => rfl
  | cons c cs ih =>
    by_cases hc : pyIsSpace c = true
    · rw [List.dropWhile_cons_of_pos hc, ih, splitWords, splitWords,
        splitWordsAux, if_pos hc, if_pos rfl]
    · rw [List.dropWhile_cons_of_neg (by simpa using hc)]

/-- Helper: `str.strip()` does not change `str.split()`. -/
theorem splitWords_strip (l : List Char) :
    splitWords (strip l) = splitWords l := by
  have hdecomp : List.dropWhile pyIsSpace l =
      strip l ++ (List.takeWhile pyIsSpace
        ((List.dropWhile pyIsSpace l).reverse)).reverse := by
    unfold strip
    rw [← List.reverse_append, List.takeWhile_append_dropWhile,
      List.reverse_reverse]
  have hair : ((List.takeWhile pyIsSpace
      ((List.dropWhile pyIsSpace l).reverse)).reverse).all pyIsSpace = true := by
    rw [List.all_eq_true]
    intro x hx
    rw [List.mem_reverse] at hx
    exact List.mem_takeWhile_imp hx
  have h1 : splitWords (List.dropWhile pyIsSpace l) = splitWords (strip l) := by
    rw [hdecomp, splitWords, splitWords]
    exact splitWordsAux_append_space _ [] _ hair
  rw [← h1, splitWords_dropWhile]

/-- Helper: wrapper of `splitWordsAux_good` for `splitWords`. -/
theorem splitWords_good (l : List Char) :
    ∀ w ∈ splitWords l, w ≠ [] ∧ w.all (fun c => !pyIsSpace c) = true :=
  splitWordsAux_good l [] rfl

/-- Helper: Python floor division `overlap // 4` for a positive overlap. -/
theorem fdiv_four_pos (ov : Int) (h : 0 < ov) :
    Int.fdiv ov 4 = ((ov.toNat / 4 : Nat) : Int) := by
  rw [Int.fdiv_eq_tdiv (le_of_lt h) (by norm_num)]
  conv_lhs => rw [← Int.toNat_of_nonneg (le_of_lt h)]
  norm_cast

/-- Helper: the overlap seed words are words of the closed buffer. -/
theorem seedWords_subset (ov : Int) (cur : List Char) :
    ∀ w ∈ seedWords ov cur, w ∈ splitWords cur := by
  intro w hw
  rw [seedWords] at hw
  rw [pyDropFrom] at hw
  split at hw <;> exact List.mem_of_mem_drop hw

/-- Helper: for a positive overlap, the claimed tail words of the closed
buffer (`min(word count, overlap // 4)` last words) are a prefix of the seed
the code actually computes — they coincide except in the degenerate
`overlap // 4 = 0` case, where the code seeds with all words. -/
theorem seedWords_spec (ov : Int) (hov : 0 < ov) (cur : List Char) :
    (splitWords cur).drop ((splitWords cur).length -
        min (splitWords cur).length (ov.toNat / 4)) <+: seedWords ov cur := by
  rw [seedWords]
  rw [show (let ws := splitWords cur;
      pyDropFrom (-(min (ws.length : Int) (Int.fdiv ov 4))) ws) =
      pyDropFrom (-(min ((splitWords cur).length : Int) (Int.fdiv ov 4)))
        (splitWords cur) from rfl]
  rw [fdiv_four_pos ov hov, ← Nat.cast_min]
  by_cases hm : min (splitWords cur).length (ov.toNat / 4) = 0
  · rw [hm]
    rw [show (-((0 : Nat) : Int)) = 0 by norm_num]
    rw [pyDropFrom, if_pos le_rfl]
    simp only [Nat.sub_zero, Int.toNat_zero, List.drop_zero, List.drop_length]
    exact List.nil_prefix
  · rw [pyDropFrom, if_neg (by omega)]
    have h1 : (- -((min (splitWords cur).length (ov.toNat / 4) : Nat) : Int)).toNat
        = min (splitWords cur).length (ov.toNat / 4) := by omega
    rw [h1]
    have h2 : min (splitWords cur).length
        (min (splitWords cur).length (ov.toNat / 4)) =
        min (splitWords cur).length (ov.toNat / 4) := by omega
    rw [h2]

/-- Helper: the word-overlap invariant is preserved through the chunk loop:
adjacent emitted chunks satisfy `overlapOK`, and the claimed tail words of the
last emitted chunk are always a word prefix of the pending buffer. -/
theorem chunkLoop_overlap (m ov : Int) (hov : 0 < ov) :
    ∀ (sents chunks : List (List Char)) (cur : List Char),
      List.Chain' (overlapOK ov) chunks →
      (∀ c, chunks.getLast? = some c →
        (splitWords c).drop ((splitWords c).length -
          min (splitWords c).length (ov.toNat / 4)) <+: splitWords cur) →
      (cur = [] ∨ ∃ cur₀, cur = cur₀ ++ [' ']) →
      List.Chain' (overlapOK ov) (chunkLoop m ov sents chunks cur) := by
  intro sents
  induction sents with
  | nil =>
    intro chunks cur hch hlast _
    rw [chunkLoop]
    split
    · rw [List.chain'_append]
      refine ⟨hch, List.chain'_singleton _, ?_⟩
      intro x hx y hy
      rw [List.head?_cons, Option.mem_some_iff] at hy
      subst hy
      rw [overlapOK, splitWords_strip]
      exact hlast x (Option.mem_def.mp hx)
    · exact hch
  | cons s rest ih =>
    intro chunks cur hch hlast hends
    rw [chunkLoop]
    split
    · rename_i hguard
      refine ih (chunks ++ [strip cur])
        (joinSp (seedWords ov cur) ++ [' '] ++ s ++ [' ']) ?_ ?_ ?_
      · rw [List.chain'_append]
        refine ⟨hch, List.chain'_singleton _, ?_⟩
        intro x hx y hy
        rw [List.head?_cons, Option.mem_some_iff] at hy
        subst hy
        rw [overlapOK, splitWords_strip]
        exact hlast x (Option.mem_def.mp hx)
      · intro c hc
        rw [List.getLast?_concat] at hc
        injection hc with hc
        subst hc
        have hsplit : splitWords (joinSp (seedWords ov cur) ++ [' '] ++
            (s ++ [' '])) = seedWords ov cur ++ splitWords (s ++ [' ']) :=
          splitWords_joinSp (seedWords ov cur) (s ++ [' '])
            (fun w hw => splitWords_good cur w (seedWords_subset ov cur w hw))
        have hassoc : joinSp (seedWords ov cur) ++ [' '] ++ s ++ [' '] =
            joinSp (seedWords ov cur) ++ [' '] ++ (s ++ [' ']) := by
          simp [List.append_assoc]
        rw [hassoc, hsplit, splitWords_strip]
        exact (seedWords_spec ov hov cur).trans (List.prefix_append _ _)
      · right
        exact ⟨joinSp (seedWords ov cur) ++ [' '] ++ s, by simp⟩
    · refine ih chunks (cur ++ s ++ [' ']) hch ?_ ?_
      · intro c hc
        have hold := hlast c hc
        rcases hends with rfl | ⟨cur₀, rfl⟩
        · have h0 : (splitWords c).drop ((splitWords c).length -
              min (splitWords c).length (ov.toNat / 4)) = [] :=
            List.prefix_nil.mp (by
              simpa [splitWords, splitWordsAux] using hold)
          rw [h0]
          exact List.nil_prefix
        · have hassoc : cur₀ ++ [' '] ++ s ++ [' '] =
              cur₀ ++ [' '] ++ (s ++ [' ']) := by
            simp [List.append_assoc]
          rw [hassoc, splitWords_append cur₀ (s ++ [' '])]
          exact hold.trans (List.prefix_append _ _)
      · right
        exact ⟨cur ++ s, by simp⟩

/-- Claim C6: for every configuration with `overlap > 0` and every input,
each pair of consecutive chunks satisfies the word-overlap property: the last
`min(word count of chunk i, floor(overlap/4))` words of chunk `i` appear as
the first words of chunk `i + 1`. -/
theorem chunk_overlap_words (m ov : Int) (t : List Char) (hov : 0 < ov) :
    List.Chain' (overlapOK ov) (chunkText m ov t) := by
  refine chunkLoop_overlap m ov hov _ [] [] List.chain'_nil ?_ (Or.inl rfl)
  intro c hc
  simp at hc

/-- Witness for `chunk_overlap_words` on the spec's example scenario. -/
theorem chunk_overlap_words_witness :
    (0 : Int) < 8 ∧
    List.Chain' (overlapOK 8)
      (chunkText 20 8 "Alice builds compilers. Bob writes tests.".data) :=
  ⟨by decide, chunk_overlap_words 20 8 _ (by decide)⟩

/-- Counterexample to claim C5: with `max_size = 5` and `overlap = 0` on the
text `"aaa. bbb. ccc."`, the last produced chunk (`"aaa. bbb. ccc."`, length
14) exceeds `max_size` plus the length of every sentence of the normalized
text (each of length 4, bound 9), and it is not a single sentence — the
`words[-0:]` degenerate slice makes the overlap seed the whole previous
chunk, so chunks keep growing. -/
theorem chunkText_exceeds_bound :
    ∃ c ∈ chunkText 5 0 "aaa. bbb. ccc.".data,
      (∀ s ∈ splitSent (normText "aaa. bbb. ccc.".data),
        (5 : Int) + s.length < c.length) ∧
      c ∉ (splitSent (normText "aaa. bbb. ccc.".data)).map strip := by
  decide

/-- Helper: stripping never lengthens a string. -/
theorem strip_length_le (l : List Char) : (strip l).length ≤ l.length := by
  unfold strip
  calc ((List.dropWhile pyIsSpace
          ((List.dropWhile pyIsSpace l).reverse)).reverse).length
      = (List.dropWhile pyIsSpace
          ((List.dropWhile pyIsSpace l).reverse)).length := List.length_reverse _
    _ ≤ ((List.dropWhile pyIsSpace l).reverse).length :=
        (List.dropWhile_suffix _).length_le
    _ = (List.dropWhile pyIsSpace l).length := List.length_reverse _
    _ ≤ l.length := (List.dropWhile_suffix _).length_le

/-- Helper: the overlap seed of a chunk equals the overlap seed of the buffer
it was stripped from. -/
theorem seedWords_strip (ov : Int) (cur : List Char) :
    seedWords ov (strip cur) = seedWords ov cur := by
  show pyDropFrom _ (splitWords (strip cur)) = pyDropFrom _ (splitWords cur)
  rw [splitWords_strip]

/-- Helper: the chunk-size invariant is preserved through the chunk loop:
the first emitted chunk satisfies `headOK`, adjacent chunks satisfy
`growthOK`, and the pending buffer is always empty, within `maxSize` once
stripped, or an overlap seed plus a single pending sentence. -/
theorem chunkLoop_size (m ov : Int) (sents₀ : List (List Char)) :
    ∀ (sents chunks : List (List Char)) (cur : List Char),
      (∀ s ∈ sents, s ∈ sents₀) →
      List.Chain' (growthOK m ov sents₀) chunks →
      (∀ c, chunks.head? = some c → headOK m sents₀ c) →
      (cur = [] ∨ ((strip cur).length : Int) ≤ m ∨
        (chunks = [] ∧ ∃ s ∈ sents₀, cur = s ++ [' ']) ∨
        (∃ p, chunks.getLast? = some p ∧ ∃ s ∈ sents₀,
          cur = joinSp (seedWords ov p) ++ [' '] ++ s ++ [' '])) →
      (cur = [] → chunks = []) →
      (∀ c, (chunkLoop m ov sents chunks cur).head? = some c →
          headOK m sents₀ c) ∧
      List.Chain' (growthOK m ov sents₀) (chunkLoop m ov sents chunks cur) := by
  have emitOK : ∀ (chunks : List (List Char)) (cur : List Char),
      List.Chain' (growthOK m ov sents₀) chunks →
      (∀ c, chunks.head? = some c → headOK m sents₀ c) →
      (cur = [] ∨ ((strip cur).length : Int) ≤ m ∨
        (chunks = [] ∧ ∃ s ∈ sents₀, cur = s ++ [' ']) ∨
        (∃ p, chunks.getLast? = some p ∧ ∃ s ∈ sents₀,
          cur = joinSp (seedWords ov p) ++ [' '] ++ s ++ [' '])) →
      cur ≠ [] →
      (∀ c, (chunks ++ [strip cur]).head? = some c → headOK m sents₀ c) ∧
      List.Chain' (growthOK m ov sents₀) (chunks ++ [strip cur]) := by
    intro chunks cur hch hhead hcur hne
    rcases hcur with rfl | hlen | ⟨hchn, s, hs, rfl⟩ | ⟨p, hp, s, hs, rfl⟩
    · exact absurd rfl hne
    · constructor
      · intro c hc
        cases chunks with
        | nil =>
          rw [List.nil_append, List.head?_cons] at hc
          injection hc with hc
          subst hc
          exact Or.inl hlen
        | cons a l =>
          rw [List.cons_append, List.head?_cons] at hc
          injection hc with hc
          subst hc
          exact hhead a rfl
      · rw [List.chain'_append]
        refine ⟨hch, List.chain'_singleton _, ?_⟩
        intro x _ y hy
        rw [List.head?_cons, Option.mem_some_iff] at hy
        subst hy
        exact Or.inl hlen
    · subst hchn
      constructor
      · intro c hc
        rw [List.nil_append, List.head?_cons] at hc
        injection hc with hc
        subst hc
        refine Or.inr ⟨s, hs, ?_, ?_⟩
        · rfl
        · rw [strip_append_space]
          exact (strip_length_le s)
      · rw [List.nil_append]
        exact List.chain'_singleton _
    · constructor
      · intro c hc
        cases chunks with
        | nil => simp at hp
        | cons a l =>
          rw [List.cons_append, List.head?_cons] at hc
          injection hc with hc
          subst hc
          exact hhead a rfl
      · rw [List.chain'_append]
        refine ⟨hch, List.chain'_singleton _, ?_⟩
        intro x hx y hy
        rw [List.head?_cons, Option.mem_some_iff] at hy
        subst hy
        have hx' : x = p := by
          have := Option.mem_def.mp hx
          rw [this] at hp
          injection hp
        subst hx'
        refine Or.inr ⟨s, hs, rfl, ?_⟩
        rw [strip_append_space]
        calc ((strip (joinSp (seedWords ov x) ++ [' '] ++ s)).length : Int)
            ≤ ((joinSp (seedWords ov x) ++ [' '] ++ s).length : Int) := by
              exact_mod_cast strip_length_le _
          _ = (joinSp (seedWords ov x)).length + s.length + 1 := by
              push_cast [List.length_append, List.length_singleton]
              ring
  intro sents
  induction sents with
  | nil =>
    intro chunks cur hsub hch hhead hcur hcur0
    rw [chunkLoop]
    split
    · rename_i hne
      exact emitOK chunks cur hch hhead hcur
        (by rintro rfl; exact hne (by decide))
    · exact ⟨hhead, hch⟩
  | cons s rest ih =>
    intro chunks cur hsub hch hhead hcur hcur0
    rw [chunkLoop]
    split
    · rename_i hguard
      obtain ⟨hemitH, hemitC⟩ := emitOK chunks cur hch hhead hcur hguard.2
      refine ih (chunks ++ [strip cur])
        (joinSp (seedWords ov cur) ++ [' '] ++ s ++ [' '])
        (fun x hx => hsub x (List.mem_cons_of_mem s hx)) hemitC hemitH ?_ ?_
      · refine Or.inr (Or.inr (Or.inr ⟨strip cur, ?_, s, hsub s (by simp), ?_⟩))
        · rw [List.getLast?_concat]
        · rw [seedWords_strip]
      · intro h
        exact absurd h (by simp)
    · rename_i hguard
      refine ih chunks (cur ++ s ++ [' '])
        (fun x hx => hsub x (List.mem_cons_of_mem s hx)) hch hhead ?_ ?_
      · by_cases hcur_nil : cur = []
        · subst hcur_nil
          refine Or.inr (Or.inr (Or.inl ⟨hcur0 rfl, s, hsub s (by simp), ?_⟩))
          rw [List.nil_append]
        · have hsize : ¬((cur.length : Int) + (s.length : Int) > m) := by
            intro hgt
            exact hguard ⟨hgt, hcur_nil⟩
          refine Or.inr (Or.inl ?_)
          rw [strip_append_space]
          have h1 : ((strip (cur ++ s)).length : Int) ≤
              ((cur ++ s).length : Int) := by
            exact_mod_cast strip_length_le _
          rw [List.length_append] at h1
          push_cast at h1
          omega
      · intro h
        exact absurd h (by simp)

/-- Claim C5 (amended): every chunk produced by `_chunk_text` either has
length at most `max_size`, or consists of the overlap seed carried from the
previous chunk followed by a single sentence, with length at most the seed's
length plus that sentence's length plus one; a first chunk over `max_size` is
a single stripped sentence bounded by that sentence's length.  No uniform
`max_size` plus one-sentence bound holds, because the seed is the entire
previous chunk when `overlap // 4 = 0`, and can contain arbitrarily long
words otherwise. -/
theorem chunk_size_bound (m ov : Int) (t : List Char) :
    (∀ c, (chunkText m ov t).head? = some c →
      headOK m (splitSent (normText t)) c) ∧
    List.Chain' (growthOK m ov (splitSent (normText t))) (chunkText m ov t) :=
  chunkLoop_size m ov (splitSent (normText t)) (splitSent (normText t)) [] []
    (fun _ hs => hs) List.chain'_nil (fun c hc => by simp at hc)
    (Or.inl rfl) (fun _ => rfl)

/-- Witness for `chunk_size_bound` on the spec's example scenario: the first
chunk is a single sentence of length 23, exceeding `max_size = 20`. -/
theorem chunk_size_bound_witness :
    (chunkText 20 8 "Alice builds compilers. Bob writes tests.".data).head? =
      some "Alice builds compilers.".data ∧
    headOK 20
      (splitSent (normText "Alice builds compilers. Bob writes tests.".data))
      "Alice builds compilers.".data :=
  ⟨by decide,
   (chunk_size_bound 20 8 "Alice builds compilers. Bob writes tests.".data).1
     "Alice builds compilers.".data (by decide)⟩

end ChatMe
